import Mathlib

/-!
Verification of the hosts-file mutation engine of `gwd` (a CLI website
blocker).  The Rust sources embedded here are `src/hosts.rs` and
`src/error.rs`.  Strings are modelled as `List Char`; the Rust `regex`
crate patterns built by `block_website` / `unblock_website` are modelled
by a small regular-expression calculus with Brzozowski-derivative
matching (`Rx`, `rmatch`), whose semantics is characterised by the
`rmatch_*_iff` lemmas below.
-/

namespace Gwd

/-- Coerce a Lean string literal to the `List Char` representation used
throughout this development. -/
def str (s : String) : List Char := s.data

/-! ### A regular-expression calculus

`Rx` models the fragment of the Rust `regex` crate that the source uses:
character classes (`\s`, `.`, literal characters), concatenation,
alternation and Kleene star.  The anchors `^`/`$` of the source patterns
are modelled by taking `rmatch` to be whole-string matching: in the
non-multiline mode used by the source, `^` matches only at the start of
the haystack and `$` only at its end, so `Regex::is_match` on a pattern
of the form `^ … $` holds iff the whole haystack is in the language of
the body. -/

inductive Rx : Type where
  | zero : Rx
  | eps : Rx
  | cls : (Char → Bool) → Rx
  | cat : Rx → Rx → Rx
  | alt : Rx → Rx → Rx
  | star : Rx → Rx

/-- Whether a regex accepts the empty string. -/
def nullable : Rx → Bool
  | .zero => false
  | .eps => true
  | .cls _ => false
  | .cat a b => nullable a && nullable b
  | .alt a b => nullable a || nullable b
  | .star _ => true

/-- Brzozowski derivative: `deriv r c` accepts `s` iff `r` accepts `c :: s`. -/
def deriv : Rx → Char → Rx
  | .zero, _ => .zero
  | .eps, _ => .zero
  | .cls p, c => if p c then .eps else .zero
  | .cat a b, c => if nullable a then .alt (.cat (deriv a c) b) (deriv b c) else .cat (deriv a c) b
  | .alt a b, c => .alt (deriv a c) (deriv b c)
  | .star a, c => .cat (deriv a c) (.star a)

/-- Whole-string regex matching by iterated derivatives. -/
def rmatch : Rx → List Char → Bool
  | r, [] => nullable r
  | r, c :: s => rmatch (deriv r c) s

@[simp] theorem rmatch_nil (r : Rx) : rmatch r [] = nullable r := rfl

@[simp] theorem rmatch_cons (r : Rx) (c : Char) (s : List Char) :
    rmatch r (c :: s) = rmatch (deriv r c) s := rfl

@[simp] theorem rmatch_zero (x : List Char) : rmatch .zero x = false := by
  induction x <;> simp [rmatch, nullable, deriv, *]

theorem rmatch_eps_iff (x : List Char) : rmatch .eps x = true ↔ x = [] := by
  induction x <;> simp [rmatch, nullable, deriv, *]

theorem rmatch_cls_iff (p : Char → Bool) (x : List Char) :
    rmatch (.cls p) x = true ↔ ∃ c, x = [c] ∧ p c = true := by
  match x with
  | [] => simp [rmatch, nullable]
  | [c] =>
    by_cases h : p c = true <;>
      simp [rmatch, deriv, h, nullable]
  | c :: d :: t =>
    by_cases h : p c = true <;>
      simp [rmatch, deriv, h, rmatch_eps_iff]

theorem rmatch_alt_iff (a b : Rx) (x : List Char) :
    rmatch (.alt a b) x = true ↔ rmatch a x = true ∨ rmatch b x = true := by
  induction x generalizing a b with
  | nil => simp [rmatch, nullable]
  | cons c s ih => simp [rmatch, deriv, ih]

theorem rmatch_cat_iff (a b : Rx) (x : List Char) :
    rmatch (.cat a b) x = true ↔
      ∃ u v, x = u ++ v ∧ rmatch a u = true ∧ rmatch b v = true := by
  induction x generalizing a b with
  | nil =>
    simp only [rmatch, nullable, Bool.and_eq_true]
    constructor
    · rintro ⟨h1, h2⟩
      exact ⟨[], [], rfl, h1, h2⟩
    · rintro ⟨u, v, huv, h1, h2⟩
      rcases List.append_eq_nil.1 huv.symm with ⟨hu, hv⟩
      subst hu; subst hv
      exact ⟨h1, h2⟩
  | cons c s ih =>
    rw [rmatch_cons, deriv]
    by_cases hn : nullable a = true
    · rw [if_pos hn, rmatch_alt_iff, ih]
      constructor
      · rintro (⟨u, v, huv, h1, h2⟩ | h)
        · exact ⟨c :: u, v, by simp [huv], h1, h2⟩
        · exact ⟨[], c :: s, rfl, hn, h⟩
      · rintro ⟨u, v, huv, h1, h2⟩
        match u, huv with
        | [], huv =>
          right
          rw [List.nil_append] at huv
          rw [← huv, rmatch_cons] at h2
          exact h2
        | c' :: u', huv =>
          left
          rw [List.cons_append, List.cons_eq_cons] at huv
          obtain ⟨hc, hs⟩ := huv
          subst hc
          exact ⟨u', v, hs, h1, h2⟩
    · rw [if_neg hn, ih]
      constructor
      · rintro ⟨u, v, huv, h1, h2⟩
        exact ⟨c :: u, v, by simp [huv], h1, h2⟩
      · rintro ⟨u, v, huv, h1, h2⟩
        match u, huv with
        | [], huv =>
          rw [rmatch_nil] at h1
          exact absurd h1 hn
        | c' :: u', huv =>
          rw [List.cons_append, List.cons_eq_cons] at huv
          obtain ⟨hc, hs⟩ := huv
          subst hc
          exact ⟨u', v, hs, h1, h2⟩

/-- The star of a character class accepts exactly the strings of
characters of that class.  (All stars occurring in the source's patterns
are stars of character classes: `\s*` and `.*`.) -/
theorem rmatch_star_cls_iff (p : Char → Bool) (x : List Char) :
    rmatch (.star (.cls p)) x = true ↔ ∀ c ∈ x, p c = true := by
  induction x with
  | nil => simp [rmatch, nullable]
  | cons c s ih =>
    rw [rmatch_cons, deriv, deriv]
    by_cases h : p c = true
    · rw [if_pos h]
      rw [show rmatch (Rx.cat .eps (.star (.cls p))) s = true ↔
            rmatch (.star (.cls p)) s = true by
        rw [rmatch_cat_iff]
        constructor
        · rintro ⟨u, v, huv, h1, h2⟩
          rw [rmatch_eps_iff] at h1
          subst h1
          simpa [huv] using h2
        · intro hm
          exact ⟨[], s, rfl, by simp [nullable], hm⟩]
      simp [ih, h]
    · rw [if_neg h]
      have : rmatch (Rx.cat .zero (.star (.cls p))) s = false := by
        rw [← Bool.not_eq_true, rmatch_cat_iff]
        rintro ⟨u, v, _, h1, _⟩
        simp at h1
      simp [this, h]

/-- Literal-string regex: the model of `regex::escape(d)` spliced into a
pattern, which by the contract of `escape` matches exactly the string
`d`, every metacharacter having been escaped. -/
def litStr : List Char → Rx
  | [] => .eps
  | c :: s => .cat (.cls (fun x => x = c)) (litStr s)

theorem rmatch_litStr_iff (d x : List Char) :
    rmatch (litStr d) x = true ↔ x = d := by
  induction d generalizing x with
  | nil => simp [litStr, rmatch_eps_iff]
  | cons c s ih =>
    simp only [litStr, rmatch_cat_iff, rmatch_cls_iff, ih]
    constructor
    · rintro ⟨u, v, huv, ⟨c', hu, hc⟩, hv⟩
      subst hu; subst hv
      simp only [decide_eq_true_eq] at hc
      simp [huv, hc]
    · rintro rfl
      exact ⟨[c], s, rfl, ⟨c, rfl, by simp⟩, rfl⟩

/-! ### Character classes of the source's patterns -/

/-- The Rust regex class `\s` (Unicode `White_Space`). -/
def rustWs (c : Char) : Bool :=
  c = ' ' || c = '\t' || c = '\n' || c = '\x0b' || c = '\x0c' || c = '\r' ||
  c = '\u0085' || c = ' ' || c = ' ' ||
  (' ' ≤ c && c ≤ ' ') || c = ' ' || c = ' ' ||
  c = ' ' || c = ' ' || c = '　'

/-- `\s*` -/
def wsStar : Rx := .star (.cls rustWs)

/-- `\s+` -/
def wsPlus : Rx := .cat (.cls rustWs) wsStar

/-- `.*` — in the default (non-`s`) mode of the Rust regex crate, `.`
matches any character except `\n`. -/
def dotStar : Rx := .star (.cls (fun c => !(c = '\n')))

/-- `(?:#.*)?` -/
def optComment : Rx := .alt .eps (.cat (.cls (fun c => c = '#')) dotStar)

/-! ### Constants and error type of `src/hosts.rs` / `src/error.rs` -/

/-- `const REDIRECT_IP: &str = "0.0.0.0";` -/
def REDIRECT_IP : List Char := str "0.0.0.0"

/-- `const BLOCK_COMMENT_TAG: &str = "# Blocked by gwd";` -/
def BLOCK_COMMENT_TAG : List Char := str "# Blocked by gwd"

/-- `get_hosts_path` resolved on a Unix-family build (`/etc/hosts`),
per `get_hosts_path_internal` in `src/hosts.rs`. -/
def hosts_path : String := "/etc/hosts"

/-- `hosts_path.with_extension("tmp")` -/
def hosts_path_tmp : String := "/etc/hosts.tmp"

/-- The relevant cases of `std::io::ErrorKind`. -/
inductive IoErrorKind where
  | permissionDenied : IoErrorKind
  | notFound : IoErrorKind
  | other : IoErrorKind
  deriving DecidableEq, Repr

/-- An `std::io::Error`: its `kind()` and its `Display` text. -/
structure IoError where
  kind : IoErrorKind
  msg : String
  deriving DecidableEq, Repr

/-- `AppError` from `src/error.rs`. -/
inductive AppError where
  | Io : String → AppError
  | ReadHosts : String → String → AppError
  | WriteHosts : String → String → AppError
  | InvalidDomain : List Char → AppError
  | ChallengeFailed : AppError
  | PermissionDenied : String → AppError
  | UnsupportedOS : String → AppError
  | RegexErr : String → AppError
  | Utf8Error : String → AppError
  deriving DecidableEq, Repr

/-- The closure `map_io_error` defined identically in `block_website`
(src/hosts.rs:107) and `unblock_website` (src/hosts.rs:221): kind
`PermissionDenied` becomes the `PermissionDenied` variant carrying the
path; every other kind becomes `Io` with a path-bearing message
(`{:?}` on a `PathBuf` prints the path quoted). -/
def map_io_error (e : IoError) (path : String) : AppError :=
  match e.kind with
  | .permissionDenied => .PermissionDenied path
  | _ => .Io ("Failed access hosts file at \"" ++ path ++ "\": " ++ e.msg)

/-- `impl From<io::Error> for AppError` (src/error.rs:42): the mapping
applied by the bare `?` operator — the kind is ignored and no path is
recorded. -/
def io_error_to_app (e : IoError) : AppError := .Io e.msg

/-! ### The domain normalizer `format_domain_for_hosts`

The source applies `DOMAIN_CLEANUP_REGEX = (?i)^(?:https?://)?(.*?)/?$`
and takes capture group 1, lowercased.  With the crate's leftmost-first
(preference-order) semantics, a greedy optional scheme, a lazy group and
`$` matching only at the end of the haystack (no multi-line flag, and
`.` not matching `\n`), `captures` yields: no match at all when the
input contains `\n`; otherwise group 1 is the input minus a
case-insensitive `http://`/`https://` first and minus at most one
trailing `/`.  `Char.toLower` models Unicode simple lowercasing
(`str::to_lowercase`), exact on ASCII. -/

def toLowerStr (s : List Char) : List Char := s.map Char.toLower

def SCHEME_HTTP : List Char := str "http://"

def SCHEME_HTTPS : List Char := str "https://"

/-- Capture group 1 of `DOMAIN_CLEANUP_REGEX` applied to `s`. -/
def domain_cleanup (s : List Char) : Option (List Char) :=
  if '\n' ∈ s then none
  else
    let r := if toLowerStr (s.take 8) = SCHEME_HTTPS then s.drop 8
             else if toLowerStr (s.take 7) = SCHEME_HTTP then s.drop 7
             else s
    some (if r.getLast? = some '/' then r.dropLast else r)

/-- `format_domain_for_hosts` (src/hosts.rs:63). -/
def format_domain_for_hosts (domain : List Char) : Except AppError (List Char) :=
  match domain_cleanup domain with
  | none => .error (.InvalidDomain domain)
  | some m =>
    let cleaned := toLowerStr m
    if cleaned = [] then .error (.InvalidDomain domain) else .ok cleaned

/-! ### Line splitting: `BufRead::lines` and `writeln!`

`BufRead::lines` yields the file's lines split at `\n`; each yielded
line has a trailing `\n` removed, and then a trailing `\r` removed only
when a `\n` had been removed.  A final fragment not terminated by `\n`
is yielded as-is.  `writeln!(f, "{}", l)` writes `l` followed by a
single `\n`. -/

/-- Split at `'\n'`, keeping every fragment (including a trailing empty
fragment when the input ends with `'\n'`, and `[[]]` on empty input). -/
def splitOnNl : List Char → List (List Char)
  | [] => [[]]
  | c :: rest =>
    if c = '\n' then [] :: splitOnNl rest
    else
      match splitOnNl rest with
      | [] => [[c]]
      | p :: ps => (c :: p) :: ps

/-- Strip one trailing `'\r'`, as `BufRead::lines` does on a line that
was terminated by `'\n'`. -/
def stripCr (l : List Char) : List Char :=
  if l.getLast? = some '\r' then l.dropLast else l

/-- The sequence of lines yielded by `reader.lines()` over content `c`. -/
def rustLines (c : List Char) : List (List Char) :=
  if c = [] then []
  else if c.getLast? = some '\n' then ((splitOnNl c).dropLast).map stripCr
  else ((splitOnNl c).dropLast).map stripCr ++ [(splitOnNl c).getLastD []]

/-- Concatenation of lines each terminated by `'\n'`, as produced by a
sequence of `writeln!` calls. -/
def joinNl (es : List (List Char)) : List Char :=
  es.foldr (fun e acc => e ++ '\n' :: acc) []

/-! ### The entry matcher patterns of `block_website` / `unblock_website` -/

/-- Common shape `^\s*{ip}\s+{slot}\s*(?:#.*)?$` of `check_regex1_str`,
`check_regex2_str` (src/hosts.rs:93-102) and `remove_regex_str`
(src/hosts.rs:210-215), with the anchored pattern modelled as
whole-line matching and the domain slot passed in. -/
def hosts_pattern_core (slot : Rx) : Rx :=
  .cat wsStar (.cat (litStr REDIRECT_IP) (.cat wsPlus (.cat slot (.cat wsStar optComment))))

/-- `check_regex` for one domain variant: the variant is spliced in via
`regex::escape`, i.e. as a literal string. -/
def hosts_check_pattern (d : List Char) : Rx := hosts_pattern_core (litStr d)

/-- The `www.`-prefixed variant `format!("www.{}", clean_domain)`. -/
def www_variant (d : List Char) : List Char := str "www." ++ d

/-- `remove_regex` of `unblock_website`: domain slot
`({escaped_clean_domain}|{escaped_domain_www})`. -/
def remove_pattern (d : List Char) : Rx :=
  hosts_pattern_core (.alt (litStr d) (litStr (www_variant d)))

/-- `format!("{} {} {}", REDIRECT_IP, domain, BLOCK_COMMENT_TAG)` -/
def entry_line (d : List Char) : List Char :=
  REDIRECT_IP ++ ' ' :: (d ++ ' ' :: BLOCK_COMMENT_TAG)

/-! ### `block_website` -/

/-- The `exists1`/`exists2` flags of the duplicate scan of
`block_website` (src/hosts.rs:124-139): whether some line of the file
matches `check_regex` for the given variant.  (The scan's early `break`
once both are found does not change the flags.) -/
def has_block_entry (v c : List Char) : Bool :=
  (rustLines c).any (fun l => rmatch (hosts_check_pattern v) l)

/-- The queue of new lines computed by `block_website`
(src/hosts.rs:141-153): `entry1` is queued iff no line matches
`check_regex1`, then `entry2` iff no line matches `check_regex2`. -/
def lines_to_add (cd c : List Char) : List (List Char) :=
  (if has_block_entry cd c then [] else [entry_line cd]) ++
    (if has_block_entry (www_variant cd) c then [] else [entry_line (www_variant cd)])

/-- The "ensure the file ends with a newline" step (src/hosts.rs:155-174):
when the file is non-empty and its final byte is not `'\n'`, a single
`'\n'` is written first. -/
def ensure_trailing_nl (c : List Char) : List Char :=
  if c = [] then c else if c.getLast? = some '\n' then c else c ++ ['\n']

/-- The content transformation performed by a successful `block_website`
run on a hosts file with content `c`: nothing when no lines are queued,
otherwise the newline fix-up followed by the queued lines, each
terminated by `'\n'`. -/
def block_apply (cd c : List Char) : List Char :=
  let toAdd := lines_to_add cd c
  if toAdd = [] then c else ensure_trailing_nl c ++ joinNl toAdd

/-- Outcomes of the fallible filesystem calls of `block_website`, in
program order.  `none` means the call succeeds.  The `seek(End(-1))` /
`read` probe of the final byte (src/hosts.rs:161) has its errors
swallowed by the source (`is_ok()` guards) and is modelled as
succeeding. -/
structure BlockOracle where
  openErr : Option IoError
  seekStartErr : Option IoError
  readErr : Option IoError
  metadataErr : Option IoError
  writeNlErr : Option IoError
  writeEntriesErr : Option IoError

/-- The all-successful oracle. -/
def block_allOk : BlockOracle := ⟨none, none, none, none, none, none⟩

/-- `block_website` (src/hosts.rs:80-193) over a hosts file with content
`c`: returns the operation's result together with the final content.
The `open` failure goes through `map_io_error`; the subsequent `seek`,
line reads, `metadata` and `writeln!` calls use the bare `?`, i.e.
`From<io::Error>` (`io_error_to_app`).  A failing entry write is
modelled as failing before the first entry byte; the preceding newline
fix-up may already have been applied at that point. -/
def block_website_fs (domain c : List Char) (orc : BlockOracle) :
    Except AppError Unit × List Char :=
  match format_domain_for_hosts domain with
  | .error e => (.error e, c)
  | .ok cd =>
    match orc.openErr with
    | some e => (.error (map_io_error e hosts_path), c)
    | none =>
    match orc.seekStartErr with
    | some e => (.error (io_error_to_app e), c)
    | none =>
    match orc.readErr with
    | some e => (.error (io_error_to_app e), c)
    | none =>
      let toAdd := lines_to_add cd c
      if toAdd = [] then (.ok (), c)
      else
        match orc.metadataErr with
        | some e => (.error (io_error_to_app e), c)
        | none =>
          if c ≠ [] ∧ c.getLast? ≠ some '\n' then
            match orc.writeNlErr with
            | some e => (.error (io_error_to_app e), c)
            | none =>
              match orc.writeEntriesErr with
              | some e => (.error (io_error_to_app e), c ++ ['\n'])
              | none => (.ok (), (c ++ ['\n']) ++ joinNl toAdd)
          else
            match orc.writeEntriesErr with
            | some e => (.error (io_error_to_app e), c)
            | none => (.ok (), c ++ joinNl toAdd)

/-! ### `unblock_website` -/

/-- The filesystem as seen by `unblock_website`: the hosts file's content
and the sibling temporary file (`none` = does not exist). -/
structure FsState where
  hosts : List Char
  temp : Option (List Char)
  deriving DecidableEq, Repr

/-- Outcomes of the fallible filesystem calls of `unblock_website`, in
program order; `none` means success.  Read/write failures during the
line streaming are modelled as occurring before the first line. -/
structure UnblockOracle where
  openErr : Option IoError
  tempCreateErr : Option IoError
  readErr : Option IoError
  writeTempErr : Option IoError
  removeTempErr : Option IoError
  renameErr : Option IoError

/-- The all-successful oracle. -/
def unblock_allOk : UnblockOracle := ⟨none, none, none, none, none, none⟩

/-- `unblock_website` (src/hosts.rs:196-280).  The Challenge Gate
(`run_challenge`, an external collaborator living outside the embedded
core) is passed in as a function of the normalized domain and the word
count, mirroring the call `run_challenge(&clean_domain,
challenge_word_count)?`.  The original-file `open` goes through
`map_io_error`; temp-file creation and the final rename carry the
source's custom `Io` messages; line reads, temp writes and the
`remove_file` cleanup use the bare `?` (`io_error_to_app`). -/
def unblock_website_fs (domain : List Char)
    (challenge : List Char → Nat → Except AppError Unit)
    (challenge_word_count : Nat)
    (st : FsState) (orc : UnblockOracle) :
    Except AppError Unit × FsState :=
  match format_domain_for_hosts domain with
  | .error e => (.error e, st)
  | .ok cd =>
    match challenge cd challenge_word_count with
    | .error e => (.error e, st)
    | .ok _ =>
      match orc.openErr with
      | some e => (.error (map_io_error e hosts_path), st)
      | none =>
      match orc.tempCreateErr with
      | some e => (.error (.Io ("Failed to create temp file: " ++ e.msg)), st)
      | none =>
      match orc.readErr with
      | some e => (.error (io_error_to_app e), ⟨st.hosts, some []⟩)
      | none =>
      match orc.writeTempErr with
      | some e => (.error (io_error_to_app e), ⟨st.hosts, some []⟩)
      | none =>
        let ls := rustLines st.hosts
        let kept := ls.filter (fun l => !(rmatch (remove_pattern cd) l))
        let removed := ls.countP (fun l => rmatch (remove_pattern cd) l)
        if removed = 0 then
          match orc.removeTempErr with
          | some e => (.error (io_error_to_app e), ⟨st.hosts, some (joinNl kept)⟩)
          | none => (.ok (), ⟨st.hosts, none⟩)
        else
          match orc.renameErr with
          | some e =>
            (.error (.Io ("Failed to replace hosts file with updated version: " ++
              e.msg ++ ". Temp file at: \"" ++ hosts_path_tmp ++ "\"")),
             ⟨st.hosts, some (joinNl kept)⟩)
          | none => (.ok (), ⟨joinNl kept, none⟩)

/-! ### Lemmas about line splitting and joining -/

theorem splitOnNl_ne_nil (c : List Char) : splitOnNl c ≠ [] := by
  match c with
  | [] => simp [splitOnNl]
  | x :: rest =>
    rw [splitOnNl]
    by_cases h : x = '\n'
    · simp [h]
    · rw [if_neg h]
      match splitOnNl rest with
      | [] => simp
      | p :: ps => simp

theorem splitOnNl_no_nl (c : List Char) (h : '\n' ∉ c) : splitOnNl c = [c] := by
  induction c with
  | nil => rfl
  | cons x rest ih =>
    simp only [List.mem_cons, not_or] at h
    have hx : ¬ x = '\n' := fun he => h.1 he.symm
    simp only [splitOnNl, if_neg hx, ih h.2]

/-- Splitting distributes over an explicit `'\n'` separator. -/
theorem splitOnNl_append_nl (c R : List Char) :
    splitOnNl (c ++ '\n' :: R) = splitOnNl c ++ splitOnNl R := by
  induction c with
  | nil => simp [splitOnNl]
  | cons x rest ih =>
    have ih' : splitOnNl (rest.append ('\n' :: R)) = splitOnNl rest ++ splitOnNl R := ih
    simp only [List.cons_append, splitOnNl, ih']
    by_cases h : x = '\n'
    · simp [h]
    · simp only [if_neg h]
      rcases e1 : splitOnNl rest with _ | ⟨p, ps⟩
      · exact absurd e1 (splitOnNl_ne_nil rest)
      · simp

theorem splitOnNl_concat_nl (c : List Char) :
    splitOnNl (c ++ ['\n']) = splitOnNl c ++ [[]] := by
  simpa using splitOnNl_append_nl c []

theorem mem_splitOnNl_no_nl (c : List Char) (p : List Char) (hp : p ∈ splitOnNl c) :
    '\n' ∉ p := by
  induction c generalizing p with
  | nil =>
    simp only [splitOnNl, List.mem_singleton] at hp
    simp [hp]
  | cons x rest ih =>
    rw [splitOnNl] at hp
    by_cases h : x = '\n'
    · rw [if_pos h] at hp
      rcases List.mem_cons.1 hp with h' | h'
      · simp [h']
      · exact ih p h'
    · rw [if_neg h] at hp
      have h1 := splitOnNl_ne_nil rest
      match e1 : splitOnNl rest with
      | [] => exact absurd e1 h1
      | q :: qs =>
        rw [e1] at hp ih
        rcases List.mem_cons.1 hp with h' | h'
        · subst h'
          intro hmem
          rcases List.mem_cons.1 hmem with h'' | h''
          · exact h h''.symm
          · exact ih q (List.mem_cons_self q qs) h''
        · exact ih p (List.mem_cons_of_mem q h')

theorem joinNl_nil : joinNl [] = [] := rfl

theorem joinNl_cons (e : List Char) (es : List (List Char)) :
    joinNl (e :: es) = e ++ '\n' :: joinNl es := rfl

theorem joinNl_ne_nil (es : List (List Char)) (h : es ≠ []) : joinNl es ≠ [] := by
  match es with
  | e :: es' =>
    rw [joinNl_cons]
    intro hc
    rcases List.append_eq_nil.1 hc with ⟨_, h2⟩
    exact List.cons_ne_nil _ _ h2

theorem joinNl_getLast (es : List (List Char)) (h : es ≠ []) :
    (joinNl es).getLast? = some '\n' := by
  induction es with
  | nil => exact absurd rfl h
  | cons e es' ih =>
    rw [joinNl_cons]
    rcases eq_or_ne es' [] with h' | h'
    · subst h'
      rw [joinNl_nil,
        List.getLast?_append_of_ne_nil _ (by simp : ('\n' :: [] : List Char) ≠ [])]
      rfl
    · rw [List.getLast?_append_of_ne_nil _ (by simp : ('\n' :: joinNl es' : List Char) ≠ []),
        show ('\n' :: joinNl es' : List Char) = ['\n'] ++ joinNl es' from rfl,
        List.getLast?_append_of_ne_nil _ (joinNl_ne_nil es' h')]
      exact ih h'

theorem splitOnNl_joinNl (es : List (List Char)) (h : ∀ e ∈ es, '\n' ∉ e) :
    splitOnNl (joinNl es) = es ++ [[]] := by
  induction es with
  | nil => rfl
  | cons e es' ih =>
    rw [joinNl_cons, splitOnNl_append_nl, splitOnNl_no_nl e (h e (List.mem_cons_self e es')),
      ih (fun x hx => h x (List.mem_cons_of_mem e hx))]
    rfl

theorem stripCr_of_no_cr (l : List Char) (h : l.getLast? ≠ some '\r') : stripCr l = l := by
  rw [stripCr, if_neg h]

theorem map_eq_self_of (f : List Char → List Char) (l : List (List Char))
    (h : ∀ x ∈ l, f x = x) : l.map f = l := by
  induction l with
  | nil => rfl
  | cons a t ih =>
    rw [List.map_cons, h a (List.mem_cons_self a t),
      ih (fun x hx => h x (List.mem_cons_of_mem a hx))]

/-- Reading back a sequence of `writeln!`-produced lines yields exactly
those lines, provided no line contains `'\n'` or ends with `'\r'`. -/
theorem rustLines_joinNl (es : List (List Char))
    (h : ∀ e ∈ es, '\n' ∉ e ∧ e.getLast? ≠ some '\r') :
    rustLines (joinNl es) = es := by
  match es with
  | [] => rfl
  | e :: es' =>
    rw [rustLines, if_neg (joinNl_ne_nil _ (List.cons_ne_nil e es')),
      if_pos (joinNl_getLast _ (List.cons_ne_nil e es')),
      splitOnNl_joinNl _ (fun x hx => (h x hx).1), List.dropLast_concat]
    exact map_eq_self_of _ _ (fun x hx => stripCr_of_no_cr x (h x hx).2)

theorem rustLines_nil : rustLines [] = [] := rfl

theorem stripCr_no_nl (p : List Char) (h : '\n' ∉ p) : '\n' ∉ stripCr p := by
  rw [stripCr]
  split
  · exact fun hm => h ((List.dropLast_sublist _).subset hm)
  · exact h

/-- Appending `writeln!`-produced lines to content that already ends with
`'\n'` appends exactly those lines to the line sequence. -/
theorem rustLines_append_joinNl_of_endNl (c : List Char) (es : List (List Char))
    (hc : c.getLast? = some '\n')
    (hes : ∀ e ∈ es, '\n' ∉ e ∧ e.getLast? ≠ some '\r') :
    rustLines (c ++ joinNl es) = rustLines c ++ es := by
  rcases eq_or_ne es [] with rfl | hes₀
  · simp [joinNl_nil]
  have hcne : c ≠ [] := by
    intro h
    rw [h] at hc
    exact Option.noConfusion hc
  have hsplit : c.dropLast ++ ['\n'] = c := List.dropLast_append_getLast? '\n' hc
  have h1 : c ++ joinNl es = c.dropLast ++ '\n' :: joinNl es := by
    conv_lhs => rw [← hsplit]
    rw [List.append_assoc]
    rfl
  have h2 : splitOnNl (c ++ joinNl es) = (splitOnNl c.dropLast ++ es) ++ [[]] := by
    rw [h1, splitOnNl_append_nl, splitOnNl_joinNl _ (fun x hx => (hes x hx).1),
      List.append_assoc]
  have h3 : (c ++ joinNl es).getLast? = some '\n' := by
    rw [List.getLast?_append_of_ne_nil _ (joinNl_ne_nil es hes₀)]
    exact joinNl_getLast es hes₀
  have h4 : splitOnNl c = splitOnNl c.dropLast ++ [[]] := by
    rw [← splitOnNl_concat_nl, hsplit]
  rw [rustLines, if_neg (by simp [hcne] : ¬ c ++ joinNl es = []), if_pos h3, h2,
    List.dropLast_concat, List.map_append, rustLines, if_neg hcne, if_pos hc, h4,
    List.dropLast_concat, map_eq_self_of _ es (fun x hx => stripCr_of_no_cr x (hes x hx).2)]

/-- Appending a newline fix-up plus `writeln!`-produced lines to content
that does not end with `'\n'`: every fragment of the old content becomes
a `'\n'`-terminated line (so the old final fragment now has a trailing
`'\r'` stripped), followed by exactly the new lines. -/
theorem rustLines_snoc_nl_joinNl (c : List Char) (es : List (List Char))
    (hes₀ : es ≠ [])
    (hes : ∀ e ∈ es, '\n' ∉ e ∧ e.getLast? ≠ some '\r') :
    rustLines ((c ++ ['\n']) ++ joinNl es) = (splitOnNl c).map stripCr ++ es := by
  have h1 : (c ++ ['\n']) ++ joinNl es = c ++ '\n' :: joinNl es := by
    rw [List.append_assoc]
    rfl
  have h2 : splitOnNl ((c ++ ['\n']) ++ joinNl es) = (splitOnNl c ++ es) ++ [[]] := by
    rw [h1, splitOnNl_append_nl, splitOnNl_joinNl _ (fun x hx => (hes x hx).1),
      List.append_assoc]
  have h3 : ((c ++ ['\n']) ++ joinNl es).getLast? = some '\n' := by
    rw [List.getLast?_append_of_ne_nil _ (joinNl_ne_nil es hes₀)]
    exact joinNl_getLast es hes₀
  rw [rustLines, if_neg (by simp : ¬ (c ++ ['\n']) ++ joinNl es = []), if_pos h3, h2,
    List.dropLast_concat, List.map_append,
    map_eq_self_of _ es (fun x hx => stripCr_of_no_cr x (hes x hx).2)]

/-- Every line yielded by `rustLines` is free of `'\n'`. -/
theorem mem_rustLines_no_nl (c l : List Char) (h : l ∈ rustLines c) : '\n' ∉ l := by
  rw [rustLines] at h
  by_cases hc : c = []
  · rw [if_pos hc] at h
    exact absurd h (List.not_mem_nil l)
  · rw [if_neg hc] at h
    by_cases hnl : c.getLast? = some '\n'
    · rw [if_pos hnl] at h
      rcases List.mem_map.1 h with ⟨p, hp, rfl⟩
      exact stripCr_no_nl p (mem_splitOnNl_no_nl c p ((List.dropLast_sublist _).subset hp))
    · rw [if_neg hnl] at h
      rcases List.mem_append.1 h with h1 | h1
      · rcases List.mem_map.1 h1 with ⟨p, hp, rfl⟩
        exact stripCr_no_nl p (mem_splitOnNl_no_nl c p ((List.dropLast_sublist _).subset hp))
      · rw [List.mem_singleton] at h1
        subst h1
        rcases List.mem_cons.1 (List.getLastD_mem_cons (splitOnNl c) []) with h2 | h2
        · rw [h2]
          exact List.not_mem_nil '\n'
        · exact mem_splitOnNl_no_nl c _ h2

/-! ### Characterisation of the entry-matcher patterns -/

/-- A run of `\s` whitespace. -/
def IsWsRun (w : List Char) : Prop := ∀ c ∈ w, rustWs c = true

theorem rmatch_wsStar_iff (w : List Char) : rmatch wsStar w = true ↔ IsWsRun w :=
  rmatch_star_cls_iff rustWs w

theorem rmatch_wsPlus_iff (w : List Char) :
    rmatch wsPlus w = true ↔ IsWsRun w ∧ w ≠ [] := by
  constructor
  · intro h
    rcases (rmatch_cat_iff _ _ _).1 h with ⟨u, v, rfl, hu, hv⟩
    rcases (rmatch_cls_iff _ _).1 hu with ⟨ch, rfl, hch⟩
    have hv' := (rmatch_star_cls_iff _ _).1 hv
    refine ⟨?_, by simp⟩
    intro x hx
    rcases List.mem_cons.1 hx with rfl | hx'
    · exact hch
    · exact hv' x hx'
  · rintro ⟨hws, hne⟩
    match w, hne with
    | ch :: w', _ =>
      refine (rmatch_cat_iff _ _ _).2 ⟨[ch], w', rfl, ?_, ?_⟩
      · exact (rmatch_cls_iff _ _).2 ⟨ch, rfl, hws ch (List.mem_cons_self ch w')⟩
      · exact (rmatch_star_cls_iff _ _).2 (fun x hx => hws x (List.mem_cons_of_mem ch hx))

theorem rmatch_optComment_iff (r : List Char) :
    rmatch optComment r = true ↔ r = [] ∨ ∃ t, r = '#' :: t ∧ ∀ c ∈ t, ¬ c = '\n' := by
  constructor
  · intro h
    rcases (rmatch_alt_iff _ _ r).1 h with h1 | h1
    · exact Or.inl ((rmatch_eps_iff r).1 h1)
    · right
      rcases (rmatch_cat_iff _ _ _).1 h1 with ⟨u, v, rfl, hu, hv⟩
      rcases (rmatch_cls_iff _ _).1 hu with ⟨ch, rfl, hch⟩
      have hch' : ch = '#' := by simpa using hch
      subst hch'
      refine ⟨v, rfl, ?_⟩
      intro c hc
      simpa using (rmatch_star_cls_iff _ _).1 hv c hc
  · rintro (rfl | ⟨t, rfl, ht⟩)
    · exact (rmatch_alt_iff _ _ _).2 (Or.inl ((rmatch_eps_iff _).2 rfl))
    · refine (rmatch_alt_iff _ _ _).2 (Or.inr ?_)
      refine (rmatch_cat_iff _ _ _).2 ⟨['#'], t, rfl, ?_, ?_⟩
      · exact (rmatch_cls_iff _ _).2 ⟨'#', rfl, by simp⟩
      · exact (rmatch_star_cls_iff _ _).2 (fun c hc => by simpa using ht c hc)

/-- The language of the pattern `^\s*0\.0\.0\.0\s+{slot}\s*(?:#.*)?$`,
described structurally: optional leading whitespace, the literal
null-redirect address, at least one whitespace character, a domain-slot
string satisfying `P`, optional trailing whitespace, and then either the
end of the line or a comment starting with `#`. -/
def HostsLineShape (P : List Char → Prop) (line : List Char) : Prop :=
  ∃ w0 w1 dom w2 rest,
    line = w0 ++ (REDIRECT_IP ++ (w1 ++ (dom ++ (w2 ++ rest)))) ∧
    IsWsRun w0 ∧ IsWsRun w1 ∧ w1 ≠ [] ∧ P dom ∧ IsWsRun w2 ∧
    (rest = [] ∨ ∃ t, rest = '#' :: t)

theorem hosts_pattern_core_iff (slot : Rx) (P : List Char → Prop)
    (hslot : ∀ s, rmatch slot s = true ↔ P s)
    (line : List Char) (hnl : '\n' ∉ line) :
    rmatch (hosts_pattern_core slot) line = true ↔ HostsLineShape P line := by
  constructor
  · intro h
    rcases (rmatch_cat_iff _ _ _).1 h with ⟨w0, r1, rfl, hw0, h1⟩
    rcases (rmatch_cat_iff _ _ _).1 h1 with ⟨ip, r2, rfl, hip, h2⟩
    rcases (rmatch_cat_iff _ _ _).1 h2 with ⟨w1, r3, rfl, hw1, h3⟩
    rcases (rmatch_cat_iff _ _ _).1 h3 with ⟨dom, r4, rfl, hdom, h4⟩
    rcases (rmatch_cat_iff _ _ _).1 h4 with ⟨w2, rest, rfl, hw2, hrest⟩
    rw [rmatch_litStr_iff] at hip
    subst hip
    refine ⟨w0, w1, dom, w2, rest, rfl, ?_, ?_, ?_, ?_, ?_, ?_⟩
    · exact (rmatch_wsStar_iff w0).1 hw0
    · exact ((rmatch_wsPlus_iff w1).1 hw1).1
    · exact ((rmatch_wsPlus_iff w1).1 hw1).2
    · exact (hslot dom).1 hdom
    · exact (rmatch_wsStar_iff w2).1 hw2
    · rcases (rmatch_optComment_iff rest).1 hrest with h' | ⟨t, rfl, _⟩
      · exact Or.inl h'
      · exact Or.inr ⟨t, rfl⟩
  · rintro ⟨w0, w1, dom, w2, rest, rfl, hw0, hw1, hw1ne, hP, hw2, hrest⟩
    refine (rmatch_cat_iff _ _ _).2 ⟨w0, _, rfl, (rmatch_wsStar_iff w0).2 hw0, ?_⟩
    refine (rmatch_cat_iff _ _ _).2 ⟨REDIRECT_IP, _, rfl, (rmatch_litStr_iff _ _).2 rfl, ?_⟩
    refine (rmatch_cat_iff _ _ _).2 ⟨w1, _, rfl, (rmatch_wsPlus_iff w1).2 ⟨hw1, hw1ne⟩, ?_⟩
    refine (rmatch_cat_iff _ _ _).2 ⟨dom, _, rfl, (hslot dom).2 hP, ?_⟩
    refine (rmatch_cat_iff _ _ _).2 ⟨w2, rest, rfl, (rmatch_wsStar_iff w2).2 hw2, ?_⟩
    rcases hrest with rfl | ⟨t, rfl⟩
    · exact (rmatch_optComment_iff _).2 (Or.inl rfl)
    · refine (rmatch_optComment_iff _).2 (Or.inr ⟨t, rfl, ?_⟩)
      intro c hc hcnl
      subst hcnl
      exact hnl (List.mem_append_right _ (List.mem_append_right _ (List.mem_append_right _
        (List.mem_append_right _ (List.mem_append_right _ (List.mem_cons_of_mem '#' hc))))))

/-- `check_regex` for a single escaped domain variant matches exactly the
lines of `HostsLineShape` whose domain slot is that variant. -/
theorem rmatch_check_iff (d line : List Char) (hnl : '\n' ∉ line) :
    rmatch (hosts_check_pattern d) line = true ↔
      HostsLineShape (fun dom => dom = d) line :=
  hosts_pattern_core_iff (litStr d) _ (fun s => rmatch_litStr_iff d s) line hnl

/-- `remove_regex` matches exactly the lines of `HostsLineShape` whose
domain slot is the bare domain or its `www.` variant. -/
theorem rmatch_remove_iff (d line : List Char) (hnl : '\n' ∉ line) :
    rmatch (remove_pattern d) line = true ↔
      HostsLineShape (fun dom => dom = d ∨ dom = www_variant d) line :=
  hosts_pattern_core_iff _ _
    (fun s => by rw [rmatch_alt_iff, rmatch_litStr_iff, rmatch_litStr_iff]) line hnl

/-! ### Facts about the entry lines written by `block_website` -/

theorem entry_line_no_nl (d : List Char) (h : '\n' ∉ d) : '\n' ∉ entry_line d := by
  intro hm
  rw [entry_line] at hm
  rcases List.mem_append.1 hm with h1 | h1
  · revert h1
    decide
  · rcases List.mem_cons.1 h1 with h2 | h2
    · exact absurd h2 (by decide)
    · rcases List.mem_append.1 h2 with h3 | h3
      · exact h h3
      · rcases List.mem_cons.1 h3 with h4 | h4
        · exact absurd h4 (by decide)
        · revert h4
          decide

theorem entry_line_getLast (d : List Char) : (entry_line d).getLast? = some 'd' := by
  rw [entry_line,
    List.getLast?_append_of_ne_nil _ (List.cons_ne_nil ' ' (d ++ ' ' :: BLOCK_COMMENT_TAG)),
    show (' ' :: (d ++ ' ' :: BLOCK_COMMENT_TAG) : List Char) =
      [' '] ++ (d ++ ' ' :: BLOCK_COMMENT_TAG) from rfl,
    List.getLast?_append_of_ne_nil _ (by simp : d ++ ' ' :: BLOCK_COMMENT_TAG ≠ []),
    List.getLast?_append_of_ne_nil _ (List.cons_ne_nil ' ' BLOCK_COMMENT_TAG)]
  decide

theorem entry_line_not_cr (d : List Char) : (entry_line d).getLast? ≠ some '\r' := by
  rw [entry_line_getLast]
  decide

theorem www_variant_no_nl (d : List Char) (h : '\n' ∉ d) : '\n' ∉ www_variant d := by
  intro hm
  rcases List.mem_append.1 hm with h1 | h1
  · revert h1
    decide
  · exact h h1

/-- A freshly written block entry matches its own `check_regex`. -/
theorem entry_line_matches (d : List Char) (hnl : '\n' ∉ d) :
    rmatch (hosts_check_pattern d) (entry_line d) = true := by
  rw [rmatch_check_iff d _ (entry_line_no_nl d hnl)]
  refine ⟨[], [' '], d, [' '], BLOCK_COMMENT_TAG, rfl, ?_, ?_, by simp, rfl, ?_, ?_⟩
  · intro c hc
    exact absurd hc (List.not_mem_nil c)
  · intro c hc
    rw [List.mem_singleton] at hc
    subst hc
    decide
  · intro c hc
    rw [List.mem_singleton] at hc
    subst hc
    decide
  · exact Or.inr ⟨str " Blocked by gwd", rfl⟩

/-! ### Facts about `format_domain_for_hosts` -/

theorem toLower_eq_nl (a : Char) (h : a.toLower = '\n') : a = '\n' := by
  rw [Char.toLower] at h
  split at h
  · rename_i hc
    exfalso
    have h10 : (Char.ofNat (a.toNat + 32)).toNat = ('\n' : Char).toNat := congrArg Char.toNat h
    rw [Char.ofNat, dif_pos (Or.inl (by omega) : Nat.isValidChar (a.toNat + 32))] at h10
    simp [Char.toNat, Char.ofNatAux, UInt32.ofNat', UInt32.toNat, Fin.ofNat'] at h10
  · exact h

theorem toLowerStr_no_nl (s : List Char) (h : '\n' ∉ s) : '\n' ∉ toLowerStr s := by
  intro hm
  rcases List.mem_map.1 hm with ⟨a, ha, hla⟩
  rw [toLower_eq_nl a hla] at ha
  exact h ha

theorem domain_cleanup_no_nl (d m : List Char) (e : domain_cleanup d = some m) :
    '\n' ∉ m := by
  rw [domain_cleanup] at e
  by_cases hnl : '\n' ∈ d
  · rw [if_pos hnl] at e
    exact absurd e (by simp)
  · rw [if_neg hnl] at e
    dsimp only at e
    have hr : '\n' ∉ (if toLowerStr (d.take 8) = SCHEME_HTTPS then d.drop 8
        else if toLowerStr (d.take 7) = SCHEME_HTTP then d.drop 7 else d) := by
      split
      · exact fun hm' => hnl ((List.drop_sublist 8 d).subset hm')
      · split
        · exact fun hm' => hnl ((List.drop_sublist 7 d).subset hm')
        · exact hnl
    have hm : m = (if (if toLowerStr (d.take 8) = SCHEME_HTTPS then d.drop 8
        else if toLowerStr (d.take 7) = SCHEME_HTTP then d.drop 7 else d).getLast? = some '/'
        then (if toLowerStr (d.take 8) = SCHEME_HTTPS then d.drop 8
        else if toLowerStr (d.take 7) = SCHEME_HTTP then d.drop 7 else d).dropLast
        else (if toLowerStr (d.take 8) = SCHEME_HTTPS then d.drop 8
        else if toLowerStr (d.take 7) = SCHEME_HTTP then d.drop 7 else d)) := by
      injection e with e'
      exact e'.symm
    rw [hm]
    generalize hR : (if toLowerStr (d.take 8) = SCHEME_HTTPS then d.drop 8
        else if toLowerStr (d.take 7) = SCHEME_HTTP then d.drop 7 else d) = r at hr ⊢
    split
    · exact fun hm' => hr ((List.dropLast_sublist _).subset hm')
    · exact hr

/-- The normalized domain returned by `format_domain_for_hosts` never
contains `'\n'` (the cleanup regex cannot match an input containing one)
and is never empty (the explicit emptiness check). -/
theorem format_domain_ok_facts (d cd : List Char)
    (h : format_domain_for_hosts d = .ok cd) : '\n' ∉ cd ∧ cd ≠ [] := by
  rw [format_domain_for_hosts] at h
  rcases e : domain_cleanup d with _ | m
  · rw [e] at h
    exact absurd h (by simp)
  · rw [e] at h
    dsimp only at h
    split at h
    · exact absurd h (by simp)
    · rename_i hne
      have hcd : toLowerStr m = cd := by
        injection h
      subst hcd
      exact ⟨toLowerStr_no_nl m (domain_cleanup_no_nl d m e), hne⟩

theorem getLastD_mem (l : List (List Char)) (hl : l ≠ []) (d₀ : List Char) :
    l.getLastD d₀ ∈ l := by
  induction l generalizing d₀ with
  | nil => exact absurd rfl hl
  | cons a t ih =>
    cases t with
    | nil => simp [List.getLastD]
    | cons b t' =>
      rw [List.getLastD_cons]
      exact List.mem_cons_of_mem a (ih (List.cons_ne_nil b t') a)

/-- Each line of `rustLines c` is, possibly after one more trailing-CR
strip, among the once-stripped fragments of `c` (the view `rustLines`
takes of the same bytes once they have become `'\n'`-terminated). -/
theorem mem_rustLines_cases (c l : List Char) (h : l ∈ rustLines c) :
    l ∈ (splitOnNl c).map stripCr ∨ stripCr l ∈ (splitOnNl c).map stripCr := by
  rw [rustLines] at h
  by_cases hc : c = []
  · rw [if_pos hc] at h
    exact absurd h (List.not_mem_nil l)
  · rw [if_neg hc] at h
    by_cases hnl : c.getLast? = some '\n'
    · rw [if_pos hnl] at h
      left
      rcases List.mem_map.1 h with ⟨p, hp, rfl⟩
      exact List.mem_map_of_mem _ ((List.dropLast_sublist _).subset hp)
    · rw [if_neg hnl] at h
      rcases List.mem_append.1 h with h1 | h1
      · left
        rcases List.mem_map.1 h1 with ⟨p, hp, rfl⟩
        exact List.mem_map_of_mem _ ((List.dropLast_sublist _).subset hp)
      · right
        rw [List.mem_singleton] at h1
        subst h1
        exact List.mem_map_of_mem _ (getLastD_mem _ (splitOnNl_ne_nil c) [])

/-- Stripping a trailing carriage return from a matching line preserves
the match, provided the domain slot string is non-empty and does not
itself end in `'\r'` (the stripped character then lies in trailing
whitespace or inside the comment). -/
theorem rmatch_check_stripCr (d l : List Char) (hnl : '\n' ∉ l)
    (hdne : d ≠ []) (hdcr : d.getLast? ≠ some '\r')
    (h : rmatch (hosts_check_pattern d) l = true) :
    rmatch (hosts_check_pattern d) (stripCr l) = true := by
  by_cases hcr : l.getLast? = some '\r'
  · rw [rmatch_check_iff d l hnl] at h
    obtain ⟨w0, w1, dom, w2, rest, heq, hw0, hw1, hw1ne, hdom, hw2, hrest⟩ := h
    subst hdom
    rw [stripCr, if_pos hcr,
      rmatch_check_iff dom _ (fun hm => hnl ((List.dropLast_sublist _).subset hm))]
    rcases hrest with rfl | ⟨t, rfl⟩
    · rcases eq_or_ne w2 [] with rfl | hw2ne
      · exfalso
        apply hdcr
        rw [heq, List.append_nil, List.append_nil,
          List.getLast?_append_of_ne_nil _
            (by simp [REDIRECT_IP, str] : REDIRECT_IP ++ (w1 ++ dom) ≠ []),
          List.getLast?_append_of_ne_nil _ (by simp [hdne] : w1 ++ dom ≠ []),
          List.getLast?_append_of_ne_nil _ hdne] at hcr
        exact hcr
      · refine ⟨w0, w1, dom, w2.dropLast, [], ?_, hw0, hw1, hw1ne, rfl,
          fun c hc => hw2 c ((List.dropLast_sublist _).subset hc), Or.inl rfl⟩
        rw [heq, List.append_nil, List.append_nil]
        simp [List.dropLast_append_of_ne_nil, hw2ne, hdne]
    · rcases eq_or_ne t [] with rfl | htne
      · exfalso
        rw [heq,
          List.getLast?_append_of_ne_nil _
            (by simp : REDIRECT_IP ++ (w1 ++ (dom ++ (w2 ++ ['#']))) ≠ []),
          List.getLast?_append_of_ne_nil _ (by simp : w1 ++ (dom ++ (w2 ++ ['#'])) ≠ []),
          List.getLast?_append_of_ne_nil _ (by simp : dom ++ (w2 ++ ['#']) ≠ []),
          List.getLast?_append_of_ne_nil _ (by simp : w2 ++ ['#'] ≠ []),
          List.getLast?_append_of_ne_nil _ (by simp : ['#'] ≠ ([] : List Char))] at hcr
        exact absurd hcr (by decide)
      · refine ⟨w0, w1, dom, w2, '#' :: t.dropLast, ?_, hw0, hw1, hw1ne, rfl, hw2,
          Or.inr ⟨t.dropLast, rfl⟩⟩
        rw [heq, show ('#' :: t : List Char) = ['#'] ++ t from rfl]
        simp [List.dropLast_append_of_ne_nil, htne]
        exact List.dropLast_append_of_ne_nil ['#'] htne
  · rw [stripCr_of_no_cr l hcr]
    exact h

/-! ### Idempotence machinery for `block_website` -/

theorem lines_to_add_spec (cd c : List Char) :
    ∀ e ∈ lines_to_add cd c, e = entry_line cd ∨ e = entry_line (www_variant cd) := by
  intro e he
  rw [lines_to_add] at he
  rcases List.mem_append.1 he with h | h
  · split at h
    · exact absurd h (List.not_mem_nil e)
    · rw [List.mem_singleton] at h
      exact Or.inl h
  · split at h
    · exact absurd h (List.not_mem_nil e)
    · rw [List.mem_singleton] at h
      exact Or.inr h

theorem lines_to_add_props (cd c : List Char) (hnl : '\n' ∉ cd) :
    ∀ e ∈ lines_to_add cd c, '\n' ∉ e ∧ e.getLast? ≠ some '\r' := by
  intro e he
  rcases lines_to_add_spec cd c e he with rfl | rfl
  · exact ⟨entry_line_no_nl cd hnl, entry_line_not_cr cd⟩
  · exact ⟨entry_line_no_nl _ (www_variant_no_nl cd hnl), entry_line_not_cr _⟩

/-- After a block run appends lines `es` (newline fix-up included), a
variant is detected as present when it either was detected before or its
entry line is among the appended ones. -/
theorem has_entry_after_append (v c : List Char) (es : List (List Char))
    (hvne : v ≠ []) (hvcr : v.getLast? ≠ some '\r') (hvnl : '\n' ∉ v)
    (hes₀ : es ≠ []) (hes : ∀ e ∈ es, '\n' ∉ e ∧ e.getLast? ≠ some '\r')
    (h : has_block_entry v c = true ∨ entry_line v ∈ es) :
    has_block_entry v (ensure_trailing_nl c ++ joinNl es) = true := by
  rw [has_block_entry, List.any_eq_true]
  by_cases hc : c = []
  · subst hc
    rw [show ensure_trailing_nl [] = [] from rfl, List.nil_append, rustLines_joinNl es hes]
    rcases h with h | h
    · rw [has_block_entry, List.any_eq_true] at h
      rcases h with ⟨l, hl, _⟩
      exact absurd hl (by simp [rustLines_nil])
    · exact ⟨entry_line v, h, entry_line_matches v hvnl⟩
  · by_cases hnl : c.getLast? = some '\n'
    · rw [show ensure_trailing_nl c = c by rw [ensure_trailing_nl, if_neg hc, if_pos hnl],
        rustLines_append_joinNl_of_endNl c es hnl hes]
      rcases h with h | h
      · rw [has_block_entry, List.any_eq_true] at h
        rcases h with ⟨l, hl, hm⟩
        exact ⟨l, List.mem_append_left _ hl, hm⟩
      · exact ⟨entry_line v, List.mem_append_right _ h, entry_line_matches v hvnl⟩
    · rw [show ensure_trailing_nl c = c ++ ['\n'] by
          rw [ensure_trailing_nl, if_neg hc, if_neg hnl],
        rustLines_snoc_nl_joinNl c es hes₀ hes]
      rcases h with h | h
      · rw [has_block_entry, List.any_eq_true] at h
        rcases h with ⟨l, hl, hm⟩
        rcases mem_rustLines_cases c l hl with h2 | h2
        · exact ⟨l, List.mem_append_left _ h2, hm⟩
        · exact ⟨stripCr l, List.mem_append_left _ h2,
            rmatch_check_stripCr v l (mem_rustLines_no_nl c l hl) hvne hvcr hm⟩
      · exact ⟨entry_line v, List.mem_append_right _ h, entry_line_matches v hvnl⟩

/-- Idempotence of the content transformation of `block_website`, for a
normalized domain that does not end in `'\r'`. -/
theorem block_apply_idem (cd c : List Char) (hnl : '\n' ∉ cd) (hne : cd ≠ [])
    (hcr : cd.getLast? ≠ some '\r') :
    block_apply cd (block_apply cd c) = block_apply cd c := by
  by_cases hA : lines_to_add cd c = []
  · have h1 : block_apply cd c = c := by
      rw [block_apply, if_pos hA]
    rw [h1]
    exact h1
  · have hes := lines_to_add_props cd c hnl
    have h1 : block_apply cd c = ensure_trailing_nl c ++ joinNl (lines_to_add cd c) := by
      rw [block_apply, if_neg hA]
    have hwne : www_variant cd ≠ [] := by simp [www_variant, str]
    have hwcr : (www_variant cd).getLast? ≠ some '\r' := by
      rw [www_variant, List.getLast?_append_of_ne_nil _ hne]
      exact hcr
    have hwnl : '\n' ∉ www_variant cd := www_variant_no_nl cd hnl
    have hx1 : has_block_entry cd (block_apply cd c) = true := by
      rw [h1]
      apply has_entry_after_append cd c _ hne hcr hnl hA hes
      by_cases hb : has_block_entry cd c = true
      · exact Or.inl hb
      · right
        rw [lines_to_add, if_neg hb]
        exact List.mem_append_left _ (List.mem_singleton.2 rfl)
    have hx2 : has_block_entry (www_variant cd) (block_apply cd c) = true := by
      rw [h1]
      apply has_entry_after_append (www_variant cd) c _ hwne hwcr hwnl hA hes
      by_cases hb : has_block_entry (www_variant cd) c = true
      · exact Or.inl hb
      · right
        rw [lines_to_add, if_neg hb]
        exact List.mem_append_right _ (List.mem_singleton.2 rfl)
    have hA' : lines_to_add cd (block_apply cd c) = [] := by
      rw [lines_to_add, if_pos hx1, if_pos hx2]
      rfl
    conv_lhs => rw [block_apply]
    rw [if_pos hA']

/-! ### Bridging lemmas: the fs models on the all-successful oracle -/

theorem block_website_fs_ok (d cd c : List Char)
    (hfd : format_domain_for_hosts d = .ok cd) :
    block_website_fs d c block_allOk = (.ok (), block_apply cd c) := by
  rw [block_website_fs, hfd]
  dsimp only [block_allOk]
  by_cases hA : lines_to_add cd c = []
  · rw [if_pos hA, block_apply, if_pos hA]
  · rw [if_neg hA, block_apply, if_neg hA]
    by_cases hc : c ≠ [] ∧ c.getLast? ≠ some '\n'
    · rw [if_pos hc, ensure_trailing_nl, if_neg hc.1, if_neg hc.2]
    · rw [if_neg hc]
      have he : ensure_trailing_nl c = c := by
        rw [ensure_trailing_nl]
        rcases not_and_or.1 hc with h | h
        · rw [not_not] at h
          rw [if_pos h]
        · rw [not_not] at h
          by_cases hce : c = []
          · rw [if_pos hce]
          · rw [if_neg hce, if_pos h]
      rw [he]

theorem unblock_website_fs_ok (d cd : List Char)
    (ch : List Char → Nat → Except AppError Unit) (wc : Nat) (st : FsState)
    (hfd : format_domain_for_hosts d = .ok cd) (hch : ch cd wc = .ok ()) :
    unblock_website_fs d ch wc st unblock_allOk =
      (if (rustLines st.hosts).countP (fun l => rmatch (remove_pattern cd) l) = 0
       then (.ok (), ⟨st.hosts, none⟩)
       else (.ok (), ⟨joinNl ((rustLines st.hosts).filter
              (fun l => !(rmatch (remove_pattern cd) l))), none⟩)) := by
  rw [unblock_website_fs, hfd]
  dsimp only
  rw [hch]
  dsimp only [unblock_allOk]

/-! ### Claim theorems -/

/-- Claim C4 (amended): block is idempotent for every starting content
and every domain whose normalized form does not end in a carriage
return; and starting from an empty file, blocking `example.com` twice
leaves exactly two lines.  (The carriage-return proviso is forced by
`c4_counterexample`.) -/
theorem c4_block_idempotent :
    (∀ d cd c, format_domain_for_hosts d = .ok cd → cd.getLast? ≠ some '\r' →
      block_website_fs d (block_website_fs d c block_allOk).2 block_allOk =
        block_website_fs d c block_allOk) ∧
    (rustLines (block_website_fs (str "example.com")
        (block_website_fs (str "example.com") [] block_allOk).2 block_allOk).2).length = 2 := by
  constructor
  · intro d cd c hfd hcr
    obtain ⟨hnl, hne⟩ := format_domain_ok_facts d cd hfd
    rw [block_website_fs_ok d cd c hfd, block_website_fs_ok d cd _ hfd,
      block_apply_idem cd c hnl hne hcr]
  · decide

/-- Claim C4, witness: the amended idempotence theorem applied to
`example.com` and the empty hosts file. -/
theorem c4_block_idempotent_witness :
    block_website_fs (str "example.com")
        (block_website_fs (str "example.com") [] block_allOk).2 block_allOk =
      block_website_fs (str "example.com") [] block_allOk :=
  c4_block_idempotent.1 (str "example.com") (str "example.com") [] rfl (by decide)

/-- Claim C4, counterexample: for the input domain `"a\r"` (which the
normalizer accepts unchanged) and a hosts file consisting of the single
unterminated line `0.0.0.0 a\r`, blocking twice yields different content
than blocking once — the first run sees the existing `a\r` entry (the
final unterminated line keeps its `'\r'`), but after the run the file is
newline-terminated, re-reading strips the `'\r'`, the entry no longer
matches, and the second run appends it again. -/
theorem c4_counterexample :
    (block_website_fs (str "a\r")
        (block_website_fs (str "a\r") (str "0.0.0.0 a\r") block_allOk).2 block_allOk).2 ≠
      (block_website_fs (str "a\r") (str "0.0.0.0 a\r") block_allOk).2 := by
  decide

/-- Claim C9 (confirmed): on a non-empty hosts file not ending in a
newline, with lines queued, block writes a single `'\n'` first and then
the queued entries each `'\n'`-terminated; consequently every queued
entry is its own line, after the old content's own lines. -/
theorem c9_trailing_newline :
    ∀ d cd c, format_domain_for_hosts d = .ok cd →
      c ≠ [] → c.getLast? ≠ some '\n' → lines_to_add cd c ≠ [] →
      (block_website_fs d c block_allOk).2 = (c ++ ['\n']) ++ joinNl (lines_to_add cd c) ∧
      rustLines (block_website_fs d c block_allOk).2 =
        (splitOnNl c).map stripCr ++ lines_to_add cd c := by
  intro d cd c hfd hc hnl hA
  obtain ⟨hdnl, _⟩ := format_domain_ok_facts d cd hfd
  rw [block_website_fs_ok d cd c hfd]
  have he : ensure_trailing_nl c = c ++ ['\n'] := by
    rw [ensure_trailing_nl, if_neg hc, if_neg hnl]
  constructor
  · dsimp only
    rw [block_apply, if_neg hA, he]
  · dsimp only
    rw [block_apply, if_neg hA, he,
      rustLines_snoc_nl_joinNl c _ hA (lines_to_add_props cd c hdnl)]

/-- Claim C9, witness: blocking `example.com` over the unterminated
content `127.0.0.1 localhost`. -/
theorem c9_trailing_newline_witness :
    (block_website_fs (str "example.com") (str "127.0.0.1 localhost") block_allOk).2 =
      (str "127.0.0.1 localhost" ++ ['\n']) ++
        joinNl (lines_to_add (str "example.com") (str "127.0.0.1 localhost")) ∧
    rustLines (block_website_fs (str "example.com")
        (str "127.0.0.1 localhost") block_allOk).2 =
      (splitOnNl (str "127.0.0.1 localhost")).map stripCr ++
        lines_to_add (str "example.com") (str "127.0.0.1 localhost") :=
  c9_trailing_newline (str "example.com") (str "example.com")
    (str "127.0.0.1 localhost") rfl (by decide) (by decide) (by decide)

/-- Claim C5 (confirmed): the check pattern built for a normalized
domain accepts exactly the lines of `HostsLineShape` form — optional
leading whitespace, the literal `0.0.0.0`, one-or-more whitespace, the
exact (literal) domain, optional trailing whitespace, then end of line
or a `#`-comment; consequently neither `0.0.0.0 notexample.com …` nor a
line for `example.com.evil.org` matches the pattern for `example.com`. -/
theorem c5_matcher_characterization :
    (∀ d line, '\n' ∉ line →
      (rmatch (hosts_check_pattern d) line = true ↔
        HostsLineShape (fun dom => dom = d) line)) ∧
    rmatch (hosts_check_pattern (str "example.com"))
      (str "0.0.0.0 notexample.com # Blocked by gwd") = false ∧
    rmatch (hosts_check_pattern (str "example.com"))
      (str "0.0.0.0 example.com.evil.org # Blocked by gwd") = false :=
  ⟨fun d line hnl => rmatch_check_iff d line hnl, by decide, by decide⟩

/-- Claim C5, witness: the characterisation applied to `example.com` and
the line `0.0.0.0 notexample.com # Blocked by gwd`. -/
theorem c5_matcher_characterization_witness :
    rmatch (hosts_check_pattern (str "example.com"))
      (str "0.0.0.0 notexample.com # Blocked by gwd") = true ↔
      HostsLineShape (fun dom => dom = str "example.com")
        (str "0.0.0.0 notexample.com # Blocked by gwd") :=
  c5_matcher_characterization.1 (str "example.com")
    (str "0.0.0.0 notexample.com # Blocked by gwd") (by decide)

/-- Claim C1, counterexample: a line for the same address and domain
added by the user with a different comment (`# my own entry`, not the
tool's marker) IS removed by unblock — the removal regex never consults
the marker text. -/
theorem c1_counterexample :
    unblock_website_fs (str "example.com") (fun _ _ => .ok ()) 0
      ⟨str "0.0.0.0 example.com # my own entry\n127.0.0.1 localhost\n", none⟩
      unblock_allOk =
      (.ok (), ⟨str "127.0.0.1 localhost\n", none⟩) := rfl

/-- Claim C1 (amended): unblock's removal predicate accepts exactly the
lines whose shape is optional whitespace, `0.0.0.0`, whitespace, the
bare or `www.` domain variant, optional whitespace, and then end of line
or any `#`-comment — the marker comment's text is not consulted, so
same-address-and-domain lines with any or no comment are removed, while
lines whose domain field differs are never removed. -/
theorem c1_removal_predicate :
    ∀ d line, '\n' ∉ line →
      (rmatch (remove_pattern d) line = true ↔
        HostsLineShape (fun dom => dom = d ∨ dom = www_variant d) line) :=
  fun d line hnl => rmatch_remove_iff d line hnl

/-- Claim C1, witness: the removal-predicate characterisation applied to
`example.com` and the user's line `0.0.0.0 example.com # my own entry`. -/
theorem c1_removal_predicate_witness :
    rmatch (remove_pattern (str "example.com"))
      (str "0.0.0.0 example.com # my own entry") = true ↔
      HostsLineShape
        (fun dom => dom = str "example.com" ∨ dom = www_variant (str "example.com"))
        (str "0.0.0.0 example.com # my own entry") :=
  c1_removal_predicate (str "example.com")
    (str "0.0.0.0 example.com # my own entry") (by decide)

/-- Claim C2, counterexample: with original content
`127.0.0.1 localhost\r\n0.0.0.0 example.com\n`, after unblock the kept
portion is `127.0.0.1 localhost\n` — not byte-identical to the original
non-matching portion `127.0.0.1 localhost\r\n`: the CRLF terminator was
rewritten to a bare LF. -/
theorem c2_counterexample :
    unblock_website_fs (str "example.com") (fun _ _ => .ok ()) 0
      ⟨str "127.0.0.1 localhost\r\n0.0.0.0 example.com\n", none⟩ unblock_allOk =
      (.ok (), ⟨str "127.0.0.1 localhost\n", none⟩) ∧
    str "127.0.0.1 localhost\n" ≠ str "127.0.0.1 localhost\r\n" :=
  ⟨rfl, by decide⟩

/-- Claim C2 (amended): when at least one line matches, unblock rewrites
the file to exactly the non-matching lines in their original order, each
re-terminated with a single `'\n'`; line content and order are preserved
(exactly so when no kept line ends in `'\r'`), but CRLF terminators are
normalised to LF and a final newline is always present — the result is
not in general byte-identical to the original's non-matching portion. -/
theorem c2_kept_lines :
    ∀ d cd (ch : List Char → Nat → Except AppError Unit) (wc : Nat) (st : FsState),
      format_domain_for_hosts d = .ok cd → ch cd wc = .ok () →
      (∃ l ∈ rustLines st.hosts, rmatch (remove_pattern cd) l = true) →
      (∀ l ∈ rustLines st.hosts, l.getLast? ≠ some '\r') →
      (unblock_website_fs d ch wc st unblock_allOk).2.hosts =
        joinNl ((rustLines st.hosts).filter (fun l => !(rmatch (remove_pattern cd) l))) ∧
      rustLines (unblock_website_fs d ch wc st unblock_allOk).2.hosts =
        (rustLines st.hosts).filter (fun l => !(rmatch (remove_pattern cd) l)) := by
  intro d cd ch wc st hfd hch hsome hcr
  have hcount : ¬ (rustLines st.hosts).countP (fun l => rmatch (remove_pattern cd) l) = 0 := by
    intro h0
    rcases hsome with ⟨l, hl, hm⟩
    exact (List.countP_eq_zero.1 h0 l hl) hm
  rw [unblock_website_fs_ok d cd ch wc st hfd hch, if_neg hcount]
  refine ⟨rfl, ?_⟩
  dsimp only
  exact rustLines_joinNl _ (fun l hl =>
    ⟨mem_rustLines_no_nl st.hosts l (List.mem_of_mem_filter hl),
     hcr l (List.mem_of_mem_filter hl)⟩)

/-- Claim C2, witness: the kept-lines theorem applied to a file holding
one tool entry and one unrelated line. -/
theorem c2_kept_lines_witness :
    (unblock_website_fs (str "example.com") (fun _ _ => .ok ()) 0
        ⟨str "0.0.0.0 example.com # Blocked by gwd\n127.0.0.1 localhost\n", none⟩
        unblock_allOk).2.hosts =
      joinNl ((rustLines
          (str "0.0.0.0 example.com # Blocked by gwd\n127.0.0.1 localhost\n")).filter
        (fun l => !(rmatch (remove_pattern (str "example.com")) l))) ∧
    rustLines (unblock_website_fs (str "example.com") (fun _ _ => .ok ()) 0
        ⟨str "0.0.0.0 example.com # Blocked by gwd\n127.0.0.1 localhost\n", none⟩
        unblock_allOk).2.hosts =
      (rustLines
          (str "0.0.0.0 example.com # Blocked by gwd\n127.0.0.1 localhost\n")).filter
        (fun l => !(rmatch (remove_pattern (str "example.com")) l)) :=
  c2_kept_lines (str "example.com") (str "example.com") (fun _ _ => .ok ()) 0
    ⟨str "0.0.0.0 example.com # Blocked by gwd\n127.0.0.1 localhost\n", none⟩
    rfl rfl
    ⟨str "0.0.0.0 example.com # Blocked by gwd", by decide⟩
    (by decide)

/-- Claim C7 (confirmed): when no line matches the removal predicate,
unblock returns success, the hosts content is unchanged, and the
temporary file is gone. -/
theorem c7_unblock_noop :
    ∀ d cd (ch : List Char → Nat → Except AppError Unit) (wc : Nat) (st : FsState),
      format_domain_for_hosts d = .ok cd → ch cd wc = .ok () →
      (∀ l ∈ rustLines st.hosts, rmatch (remove_pattern cd) l = false) →
      unblock_website_fs d ch wc st unblock_allOk = (.ok (), ⟨st.hosts, none⟩) := by
  intro d cd ch wc st hfd hch hno
  rw [unblock_website_fs_ok d cd ch wc st hfd hch,
    if_pos (List.countP_eq_zero.2 (fun l hl => by rw [hno l hl]; exact Bool.false_ne_true))]

/-- Claim C7, witness: unblocking `example.com` over a file with no
matching entries. -/
theorem c7_unblock_noop_witness :
    unblock_website_fs (str "example.com") (fun _ _ => .ok ()) 0
      ⟨str "127.0.0.1 localhost\n", none⟩ unblock_allOk =
      (.ok (), ⟨str "127.0.0.1 localhost\n", none⟩) :=
  c7_unblock_noop (str "example.com") (str "example.com") (fun _ _ => .ok ()) 0
    ⟨str "127.0.0.1 localhost\n", none⟩ rfl rfl (by decide)

/-- Claim C8 (confirmed): unblock runs the Challenge Gate (with the
normalized domain and requested word count) before any file operation;
if the gate rejects, its error propagates and the filesystem state —
hosts file and temporary file alike — is returned untouched, whatever
the filesystem oracle would have done; likewise an invalid-domain
failure leaves the filesystem untouched. -/
theorem c8_challenge_gate :
    (∀ d cd (ch : List Char → Nat → Except AppError Unit) (wc : Nat)
        (st : FsState) (orc : UnblockOracle) (err : AppError),
      format_domain_for_hosts d = .ok cd → ch cd wc = .error err →
      unblock_website_fs d ch wc st orc = (.error err, st)) ∧
    (∀ d (ch : List Char → Nat → Except AppError Unit) (wc : Nat)
        (st : FsState) (orc : UnblockOracle) (err : AppError),
      format_domain_for_hosts d = .error err →
      unblock_website_fs d ch wc st orc = (.error err, st)) := by
  constructor
  · intro d cd ch wc st orc err hfd hch
    rw [unblock_website_fs, hfd]
    dsimp only
    rw [hch]
  · intro d ch wc st orc err hfd
    rw [unblock_website_fs, hfd]

/-- Claim C8, witness: a rejecting gate propagates `ChallengeFailed`
with the state unchanged, even under an oracle whose open would fail. -/
theorem c8_challenge_gate_witness :
    unblock_website_fs (str "example.com") (fun _ _ => .error .ChallengeFailed) 5
      ⟨str "0.0.0.0 example.com # Blocked by gwd\n", none⟩
      ⟨some ⟨.permissionDenied, "denied"⟩, none, none, none, none, none⟩ =
      (.error .ChallengeFailed, ⟨str "0.0.0.0 example.com # Blocked by gwd\n", none⟩) :=
  c8_challenge_gate.1 (str "example.com") (str "example.com")
    (fun _ _ => .error .ChallengeFailed) 5
    ⟨str "0.0.0.0 example.com # Blocked by gwd\n", none⟩
    ⟨some ⟨.permissionDenied, "denied"⟩, none, none, none, none, none⟩
    .ChallengeFailed rfl rfl

/-- Claim C3, counterexample: a permission-denied failure at the seek
immediately after opening the hosts file in block is surfaced through
`From<io::Error>` as the generic `Io` variant carrying only the cause
text — not as `PermissionDenied` with the path. -/
theorem c3_counterexample :
    block_website_fs (str "example.com") []
      ⟨none, some ⟨.permissionDenied, "seek failed"⟩, none, none, none, none⟩ =
      (.error (.Io "seek failed"), []) ∧
    (.Io "seek failed" : AppError) ≠ .PermissionDenied hosts_path :=
  ⟨rfl, by decide⟩

/-- Claim C3 (amended): the kind-sensitive mapping (permission-denied ↦
`PermissionDenied` with path, otherwise `Io` with a path-bearing
message) is applied only at the opening of the hosts file, in block and
in unblock; every later failure is surfaced differently regardless of
kind — seek/read/write via `From<io::Error>` as `Io` with only the cause
text, temp-file creation as `Io` with the cause text, and the rename as
`Io` with the cause text plus the temporary file's path. -/
theorem c3_error_mapping :
    (∀ d cd c e o2 o3 o4 o5 o6, format_domain_for_hosts d = .ok cd →
      block_website_fs d c ⟨some e, o2, o3, o4, o5, o6⟩ =
        (.error (map_io_error e hosts_path), c)) ∧
    (∀ d cd c e o3 o4 o5 o6, format_domain_for_hosts d = .ok cd →
      block_website_fs d c ⟨none, some e, o3, o4, o5, o6⟩ =
        (.error (io_error_to_app e), c)) ∧
    (∀ d cd (ch : List Char → Nat → Except AppError Unit) (wc : Nat)
        (st : FsState) e o2 o3 o4 o5 o6,
      format_domain_for_hosts d = .ok cd → ch cd wc = .ok () →
      unblock_website_fs d ch wc st ⟨some e, o2, o3, o4, o5, o6⟩ =
        (.error (map_io_error e hosts_path), st)) ∧
    (∀ d cd (ch : List Char → Nat → Except AppError Unit) (wc : Nat)
        (st : FsState) e o3 o4 o5 o6,
      format_domain_for_hosts d = .ok cd → ch cd wc = .ok () →
      unblock_website_fs d ch wc st ⟨none, some e, o3, o4, o5, o6⟩ =
        (.error (.Io ("Failed to create temp file: " ++ e.msg)), st)) ∧
    (∀ d cd (ch : List Char → Nat → Except AppError Unit) (wc : Nat)
        (st : FsState) e,
      format_domain_for_hosts d = .ok cd → ch cd wc = .ok () →
      (∃ l ∈ rustLines st.hosts, rmatch (remove_pattern cd) l = true) →
      unblock_website_fs d ch wc st ⟨none, none, none, none, none, some e⟩ =
        (.error (.Io ("Failed to replace hosts file with updated version: " ++
            e.msg ++ ". Temp file at: \"" ++ hosts_path_tmp ++ "\"")),
         ⟨st.hosts, some (joinNl ((rustLines st.hosts).filter
            (fun l => !(rmatch (remove_pattern cd) l))))⟩)) := by
  refine ⟨?_, ?_, ?_, ?_, ?_⟩
  · intro d cd c e o2 o3 o4 o5 o6 hfd
    rw [block_website_fs, hfd]
  · intro d cd c e o3 o4 o5 o6 hfd
    rw [block_website_fs, hfd]
  · intro d cd ch wc st e o2 o3 o4 o5 o6 hfd hch
    rw [unblock_website_fs, hfd]
    dsimp only
    rw [hch]
  · intro d cd ch wc st e o3 o4 o5 o6 hfd hch
    rw [unblock_website_fs, hfd]
    dsimp only
    rw [hch]
  · intro d cd ch wc st e hfd hch hsome
    have hcount : ¬ (rustLines st.hosts).countP
        (fun l => rmatch (remove_pattern cd) l) = 0 := by
      intro h0
      rcases hsome with ⟨l, hl, hm⟩
      exact (List.countP_eq_zero.1 h0 l hl) hm
    rw [unblock_website_fs, hfd]
    dsimp only
    rw [hch]
    dsimp only
    rw [if_neg hcount]

/-- Claim C3, witness: the amended mapping theorem instantiated — a
permission-denied open maps to `PermissionDenied "/etc/hosts"`, while a
permission-denied seek right after maps to bare `Io "boom"`. -/
theorem c3_error_mapping_witness :
    block_website_fs (str "example.com") []
      ⟨some ⟨.permissionDenied, "boom"⟩, none, none, none, none, none⟩ =
      (.error (.PermissionDenied hosts_path), []) ∧
    block_website_fs (str "example.com") []
      ⟨none, some ⟨.permissionDenied, "boom"⟩, none, none, none, none⟩ =
      (.error (.Io "boom"), []) :=
  ⟨c3_error_mapping.1 (str "example.com") (str "example.com") []
      ⟨.permissionDenied, "boom"⟩ none none none none none rfl,
   c3_error_mapping.2.1 (str "example.com") (str "example.com") []
      ⟨.permissionDenied, "boom"⟩ none none none none rfl⟩

/-- Claim C10 (confirmed): blocking the input `www.example.com` adds
entries for `www.example.com` and the doubly-prefixed
`www.www.example.com`; unblocking that input removes exactly those two
variants and leaves the entry for the bare `example.com` untouched. -/
theorem c10_www_doubling :
    (block_website_fs (str "www.example.com") [] block_allOk).2 =
      str "0.0.0.0 www.example.com # Blocked by gwd\n0.0.0.0 www.www.example.com # Blocked by gwd\n" ∧
    unblock_website_fs (str "www.example.com") (fun _ _ => .ok ()) 0
      ⟨str ("0.0.0.0 example.com # Blocked by gwd\n" ++
            "0.0.0.0 www.example.com # Blocked by gwd\n" ++
            "0.0.0.0 www.www.example.com # Blocked by gwd\n"), none⟩
      unblock_allOk =
      (.ok (), ⟨str "0.0.0.0 example.com # Blocked by gwd\n", none⟩) :=
  ⟨rfl, rfl⟩

/-! ### The normalizer's scheme and slash handling (claim C6) -/

theorem toLower_eq_low (a x : Char) (hx : x.toNat < 97) (h : a.toLower = x) : a = x := by
  rw [Char.toLower] at h
  split at h
  · rename_i hc
    exfalso
    have h10 : (Char.ofNat (a.toNat + 32)).toNat = x.toNat := congrArg Char.toNat h
    rw [Char.ofNat, dif_pos (Or.inl (by omega) : Nat.isValidChar (a.toNat + 32))] at h10
    simp [Char.toNat, Char.ofNatAux, UInt32.ofNat', UInt32.toNat, Fin.ofNat'] at h10
    have hbx : x.toNat = x.val.toBitVec.toNat := rfl
    have hba : a.toNat = a.val.toBitVec.toNat := rfl
    omega
  · exact h

/-- The scheme test performed by the embedded cleanup: the first 8
(resp. 7) characters lowercase to `https://` (resp. `http://`). -/
def starts_with_scheme (s : List Char) : Prop :=
  toLowerStr (s.take 8) = SCHEME_HTTPS ∨ toLowerStr (s.take 7) = SCHEME_HTTP

theorem format_of_cleanup (x s : List Char) (h : domain_cleanup x = some s)
    (hne : s ≠ []) :
    format_domain_for_hosts x = .ok (toLowerStr s) := by
  rw [format_domain_for_hosts, h]
  dsimp only
  rw [if_neg (show ¬ toLowerStr s = [] from fun hh => hne (List.map_eq_nil_iff.1 hh))]

theorem cleanup_clean (s : List Char) (hnl : '\n' ∉ s)
    (hsch : ¬ starts_with_scheme s) (hsl : s.getLast? ≠ some '/') :
    domain_cleanup s = some s := by
  rw [domain_cleanup, if_neg hnl]
  dsimp only
  rw [if_neg (fun h => hsch (Or.inl h)), if_neg (fun h => hsch (Or.inr h)), if_neg hsl]

/-- Appending one `'/'` to a clean input does not create a scheme
  (otherwise the input would have ended in `'/'` already). -/
theorem no_scheme_append_slash (s : List Char) (hsch : ¬ starts_with_scheme s)
    (hsl : s.getLast? ≠ some '/') : ¬ starts_with_scheme (s ++ ['/']) := by
  rintro (h | h)
  · rw [List.take_append_eq_append_take] at h
    rcases Nat.lt_or_ge s.length 8 with hlen | hlen
    · rw [List.take_of_length_le (by omega), List.take_of_length_le
        (by simp; omega : (['/'] : List Char).length ≤ 8 - s.length)] at h
      have hdl := congrArg List.dropLast h
      rw [toLowerStr, List.map_append,
        show (['/'] : List Char).map Char.toLower = ['/'] from by decide,
        List.dropLast_concat,
        show SCHEME_HTTPS.dropLast = str "https:/" from by decide] at hdl
      have hlast2 := congrArg List.getLast? hdl
      rw [List.getLast?_map,
        show (str "https:/" : List Char).getLast? = some '/' from by decide] at hlast2
      rcases e : s.getLast? with _ | a
      · rw [e] at hlast2
        exact Option.noConfusion hlast2
      · rw [e, Option.map_some'] at hlast2
        have ha : a.toLower = '/' := Option.some.inj hlast2
        exact hsl (by rw [e, toLower_eq_low a '/' (by decide) ha])
    · rw [show 8 - s.length = 0 from by omega, List.take_zero, List.append_nil] at h
      exact hsch (Or.inl h)
  · rw [List.take_append_eq_append_take] at h
    rcases Nat.lt_or_ge s.length 7 with hlen | hlen
    · rw [List.take_of_length_le (by omega), List.take_of_length_le
        (by simp; omega : (['/'] : List Char).length ≤ 7 - s.length)] at h
      have hdl := congrArg List.dropLast h
      rw [toLowerStr, List.map_append,
        show (['/'] : List Char).map Char.toLower = ['/'] from by decide,
        List.dropLast_concat,
        show SCHEME_HTTP.dropLast = str "http:/" from by decide] at hdl
      have hlast2 := congrArg List.getLast? hdl
      rw [List.getLast?_map,
        show (str "http:/" : List Char).getLast? = some '/' from by decide] at hlast2
      rcases e : s.getLast? with _ | a
      · rw [e] at hlast2
        exact Option.noConfusion hlast2
      · rw [e, Option.map_some'] at hlast2
        have ha : a.toLower = '/' := Option.some.inj hlast2
        exact hsl (by rw [e, toLower_eq_low a '/' (by decide) ha])
    · rw [show 7 - s.length = 0 from by omega, List.take_zero, List.append_nil] at h
      exact hsch (Or.inr h)

theorem cleanup_slash (s : List Char) (hnl : '\n' ∉ s)
    (hsch : ¬ starts_with_scheme s) (hsl : s.getLast? ≠ some '/') :
    domain_cleanup (s ++ ['/']) = some s := by
  have hnl' : '\n' ∉ s ++ ['/'] := by
    intro hm
    rcases List.mem_append.1 hm with h1 | h1
    · exact hnl h1
    · exact absurd h1 (by decide)
  have hsch' := no_scheme_append_slash s hsch hsl
  rw [domain_cleanup, if_neg hnl']
  dsimp only
  rw [if_neg (fun h => hsch' (Or.inl h)), if_neg (fun h => hsch' (Or.inr h)),
    if_pos (List.getLast?_concat s), List.dropLast_concat]

/-- `http://` followed by anything non-empty never passes the `https://`
test: the fifth character is `':'`, not `'s'`. -/
theorem http_take8_ne (u : List Char) (hu : u ≠ []) :
    toLowerStr ((str "http://" ++ u).take 8) ≠ SCHEME_HTTPS := by
  match u, hu with
  | a :: u', _ =>
    intro h
    rw [List.take_append_eq_append_take,
      List.take_of_length_le (by decide : (str "http://").length ≤ 8),
      show 8 - (str "http://").length = 1 from by decide,
      show (a :: u').take 1 = [a] from rfl,
      toLowerStr, List.map_append,
      show (str "http://").map Char.toLower = str "http://" from by decide,
      show (str "http://" : List Char) = ['h', 't', 't', 'p', ':', '/', '/'] from by decide,
      show (SCHEME_HTTPS : List Char) =
        ['h', 't', 't', 'p', 's', ':', '/', '/'] from by decide] at h
    simp at h

theorem cleanup_http (s : List Char) (hne : s ≠ []) (hnl : '\n' ∉ s)
    (hsl : s.getLast? ≠ some '/') :
    domain_cleanup (str "http://" ++ s) = some s := by
  have hnl' : '\n' ∉ str "http://" ++ s := by
    intro hm
    rcases List.mem_append.1 hm with h1 | h1
    · exact absurd h1 (by decide)
    · exact hnl h1
  have hc7 : toLowerStr ((str "http://" ++ s).take 7) = SCHEME_HTTP := by
    rw [List.take_left' (show (str "http://").length = 7 from by decide)]
    decide
  have hd7 : (str "http://" ++ s).drop 7 = s :=
    List.drop_left' (show (str "http://").length = 7 from by decide)
  rw [domain_cleanup, if_neg hnl']
  dsimp only
  rw [if_neg (http_take8_ne s hne), if_pos hc7, hd7, if_neg hsl]

theorem cleanup_http_slash (s : List Char) (hnl : '\n' ∉ s) :
    domain_cleanup (str "http://" ++ (s ++ ['/'])) = some s := by
  have hnl' : '\n' ∉ str "http://" ++ (s ++ ['/']) := by
    intro hm
    rcases List.mem_append.1 hm with h1 | h1
    · exact absurd h1 (by decide)
    · rcases List.mem_append.1 h1 with h2 | h2
      · exact hnl h2
      · exact absurd h2 (by decide)
  have hc7 : toLowerStr ((str "http://" ++ (s ++ ['/'])).take 7) = SCHEME_HTTP := by
    rw [List.take_left' (show (str "http://").length = 7 from by decide)]
    decide
  have hd7 : (str "http://" ++ (s ++ ['/'])).drop 7 = s ++ ['/'] :=
    List.drop_left' (show (str "http://").length = 7 from by decide)
  rw [domain_cleanup, if_neg hnl']
  dsimp only
  rw [if_neg (http_take8_ne _ (by simp)), if_pos hc7, hd7,
    if_pos (List.getLast?_concat s), List.dropLast_concat]

theorem cleanup_https (s : List Char) (hnl : '\n' ∉ s)
    (hsl : s.getLast? ≠ some '/') :
    domain_cleanup (str "HTTPS://" ++ s) = some s := by
  have hnl' : '\n' ∉ str "HTTPS://" ++ s := by
    intro hm
    rcases List.mem_append.1 hm with h1 | h1
    · exact absurd h1 (by decide)
    · exact hnl h1
  have hc8 : toLowerStr ((str "HTTPS://" ++ s).take 8) = SCHEME_HTTPS := by
    rw [List.take_left' (show (str "HTTPS://").length = 8 from by decide)]
    decide
  have hd8 : (str "HTTPS://" ++ s).drop 8 = s :=
    List.drop_left' (show (str "HTTPS://").length = 8 from by decide)
  rw [domain_cleanup, if_neg hnl']
  dsimp only
  rw [if_pos hc8, hd8, if_neg hsl]

theorem cleanup_https_slash (s : List Char) (hnl : '\n' ∉ s) :
    domain_cleanup (str "HTTPS://" ++ (s ++ ['/'])) = some s := by
  have hnl' : '\n' ∉ str "HTTPS://" ++ (s ++ ['/']) := by
    intro hm
    rcases List.mem_append.1 hm with h1 | h1
    · exact absurd h1 (by decide)
    · rcases List.mem_append.1 h1 with h2 | h2
      · exact hnl h2
      · exact absurd h2 (by decide)
  have hc8 : toLowerStr ((str "HTTPS://" ++ (s ++ ['/'])).take 8) = SCHEME_HTTPS := by
    rw [List.take_left' (show (str "HTTPS://").length = 8 from by decide)]
    decide
  have hd8 : (str "HTTPS://" ++ (s ++ ['/'])).drop 8 = s ++ ['/'] :=
    List.drop_left' (show (str "HTTPS://").length = 8 from by decide)
  rw [domain_cleanup, if_neg hnl']
  dsimp only
  rw [if_pos hc8, hd8, if_pos (List.getLast?_concat s), List.dropLast_concat]

/-- Claim C6, counterexample: the claimed identity
`normalize(scheme + s) = normalize(s)` fails for `s` itself carrying a
scheme (scheme `http://`, `s = "https://a"`), and the trailing-slash
variant fails for `s` ending in `'/'` (`s = "a/"`): the cleanup strips
at most one scheme and one slash. -/
theorem c6_counterexample :
    format_domain_for_hosts (str "http://https://a") = .ok (str "https://a") ∧
    format_domain_for_hosts (str "https://a") = .ok (str "a") ∧
    str "https://a" ≠ str "a" ∧
    format_domain_for_hosts (str "a//") = .ok (str "a/") ∧
    format_domain_for_hosts (str "a/") = .ok (str "a") ∧
    str "a/" ≠ str "a" :=
  ⟨rfl, rfl, by decide, rfl, rfl, by decide⟩

/-- Claim C6 (amended): for every non-empty `s` free of newlines that
does not itself begin with a (case-insensitive) `http://`/`https://`
scheme and does not end in `'/'`, normalizing `s` with any scheme in
`{"", "http://", "HTTPS://"}` prepended and at most one `'/'` appended
yields `ok (lowercase s)`; and the inputs `""`, `"http://"`,
`"https://"`, `"/"` all fail with `InvalidDomain` (their cleaned result
is empty). -/
theorem c6_normalizer :
    (∀ s, s ≠ [] → '\n' ∉ s → ¬ starts_with_scheme s → s.getLast? ≠ some '/' →
      format_domain_for_hosts s = .ok (toLowerStr s) ∧
      format_domain_for_hosts (s ++ str "/") = .ok (toLowerStr s) ∧
      format_domain_for_hosts (str "http://" ++ s) = .ok (toLowerStr s) ∧
      format_domain_for_hosts (str "http://" ++ (s ++ str "/")) = .ok (toLowerStr s) ∧
      format_domain_for_hosts (str "HTTPS://" ++ s) = .ok (toLowerStr s) ∧
      format_domain_for_hosts (str "HTTPS://" ++ (s ++ str "/")) = .ok (toLowerStr s)) ∧
    format_domain_for_hosts (str "") = .error (.InvalidDomain (str "")) ∧
    format_domain_for_hosts (str "http://") = .error (.InvalidDomain (str "http://")) ∧
    format_domain_for_hosts (str "https://") = .error (.InvalidDomain (str "https://")) ∧
    format_domain_for_hosts (str "/") = .error (.InvalidDomain (str "/")) := by
  refine ⟨?_, rfl, rfl, rfl, rfl⟩
  intro s hne hnl hsch hsl
  have hslash : (str "/" : List Char) = ['/'] := by decide
  refine ⟨format_of_cleanup s s (cleanup_clean s hnl hsch hsl) hne, ?_, ?_, ?_, ?_, ?_⟩
  · rw [hslash]
    exact format_of_cleanup _ s (cleanup_slash s hnl hsch hsl) hne
  · exact format_of_cleanup _ s (cleanup_http s hne hnl hsl) hne
  · rw [hslash]
    exact format_of_cleanup _ s (cleanup_http_slash s hnl) hne
  · exact format_of_cleanup _ s (cleanup_https s hnl hsl) hne
  · rw [hslash]
    exact format_of_cleanup _ s (cleanup_https_slash s hnl) hne

/-- Claim C6, witness: the amended normalizer equivalence applied to
`s = "Example.com"`. -/
theorem c6_normalizer_witness :
    format_domain_for_hosts (str "Example.com") = .ok (toLowerStr (str "Example.com")) ∧
    format_domain_for_hosts (str "Example.com" ++ str "/") =
      .ok (toLowerStr (str "Example.com")) ∧
    format_domain_for_hosts (str "http://" ++ str "Example.com") =
      .ok (toLowerStr (str "Example.com")) ∧
    format_domain_for_hosts (str "http://" ++ (str "Example.com" ++ str "/")) =
      .ok (toLowerStr (str "Example.com")) ∧
    format_domain_for_hosts (str "HTTPS://" ++ str "Example.com") =
      .ok (toLowerStr (str "Example.com")) ∧
    format_domain_for_hosts (str "HTTPS://" ++ (str "Example.com" ++ str "/")) =
      .ok (toLowerStr (str "Example.com")) :=
  c6_normalizer.1 (str "Example.com") (by decide) (by decide)
    (by rintro (h | h) <;> revert h <;> decide) (by decide)

end Gwd
